import Mathlib

/-
Shallow embedding of the basic-synth core (src/lib.rs): a polyphonic
synthesizer built from a voice pool, per-voice oscillator banks, a cascaded
one-pole low-pass filter and an ADSR amplitude envelope.

Modelling conventions:
* f32 values are modelled exactly: envelope arithmetic (which the source
  performs with rational constants) over ℚ, oscillator/filter arithmetic
  (which involves π, sin, cos, sqrt and 2^x) over ℝ.  Rounding is not
  modelled.
* Rust iterators returning Option are modelled as value × state pairs when
  the source always returns Some; Synth's next models the lazy
  (0 .. OVERSAMPLE_RATIO).map(..).nth(0) pipeline explicitly.
* The nondeterministic wall-clock seed of Oscillator's Default impl is an
  explicit natural-number parameter.
* The f32 % operator is truncating remainder, modelled by f32Rem below.
-/

def SAMPLE_RATE : ℕ := 48000

def OVERSAMPLE_RATIO : ℕ := 4

def OVERSAMPLE_RATE : ℕ := SAMPLE_RATE * OVERSAMPLE_RATIO

def BLOCKS_PER_SECOND : ℕ := 100

def BLOCK_SIZE : ℕ := SAMPLE_RATE / BLOCKS_PER_SECOND

/-- Transform a value from one range into another, relative to those ranges'
limits (fn map_range in the source, generic over the numeric type). -/
def map_range {α : Type} [Field α] (quantity bottom_old top_old bottom_new top_new : α) : α :=
  (quantity - bottom_old) / (top_old - bottom_old) * (top_new - bottom_new) + bottom_new

/-- Shared envelope timing configuration (struct AdsrConfig). -/
structure AdsrConfig where
  attack_time : ℚ
  decay_time : ℚ
  sustain_amount : ℚ
  release_time : ℚ
deriving DecidableEq

/-- Default impl for AdsrConfig. -/
def AdsrConfig.default : AdsrConfig :=
  { attack_time := 1/2, decay_time := 1/2, sustain_amount := 1/2, release_time := 1 }

/-- Envelope segment tagged union (enum AdsrSegment). -/
inductive AdsrSegment where
  | Off : AdsrSegment
  | Attack : ℚ → ℚ → AdsrSegment
  | Decay : ℚ → AdsrSegment
  | Sustain : AdsrSegment
  | Release : ℚ → ℚ → AdsrSegment
deriving DecidableEq

/-- Envelope generator state (struct Adsr).  The Rc-shared config is inlined
as a plain field since it is never mutated. -/
structure Adsr where
  config : AdsrConfig
  segment : AdsrSegment
  velocity_ratio : ℚ
deriving DecidableEq

/-- Adsr::new. -/
def Adsr.new (config : AdsrConfig) : Adsr :=
  { config := config, segment := .Off, velocity_ratio := 0 }

/-- One envelope tick (impl Iterator for Adsr, fn next).  The source always
returns Some, so the model returns the emitted value and the new state. -/
def Adsr.next (a : Adsr) : ℚ × Adsr :=
  let step : ℚ × AdsrSegment :=
    match a.segment with
    | .Off => (0, .Off)
    | .Attack amt st =>
      if 1 ≤ amt then (1, .Decay 0)
      else
        (map_range amt 0 1 st 1,
         .Attack (amt + (1 / map_range a.velocity_ratio 0 1 a.config.attack_time 0)
             / (OVERSAMPLE_RATE : ℚ)) st)
    | .Decay amt =>
      if 1 ≤ amt then (a.config.sustain_amount, .Sustain)
      else
        (map_range amt 0 1 1 a.config.sustain_amount,
         .Decay (amt + (1 / map_range a.velocity_ratio 0 1 a.config.decay_time 0)
             / (OVERSAMPLE_RATE : ℚ)))
    | .Sustain => (a.config.sustain_amount, .Sustain)
    | .Release amt rp =>
      if 1 ≤ amt then (0, .Off)
      else
        (map_range amt 0 1 rp 0,
         .Release (amt + (1 / map_range a.velocity_ratio 0 1 a.config.release_time 0)
             / (OVERSAMPLE_RATE : ℚ)) rp)
  (step.1 * map_range a.velocity_ratio 0 1 (1/4) 1, { a with segment := step.2 })

/-- TAU of the source (2π). -/
noncomputable def tau : ℝ := 2 * Real.pi

/-- Truncation toward zero, as Rust casts and remainders use. -/
noncomputable def rtrunc (r : ℝ) : ℤ := if 0 ≤ r then ⌊r⌋ else ⌈r⌉

/-- Rust's % on f32: truncating remainder x - y·trunc(x/y). -/
noncomputable def f32Rem (x y : ℝ) : ℝ := x - y * (rtrunc (x / y) : ℝ)

/-- Wave shapes (enum Waveform). -/
inductive Waveform where
  | Sine : Waveform
  | Pulse : Waveform
  | Saw : Waveform
deriving DecidableEq

/-- Waveform::sample: map a phase to an amplitude. -/
noncomputable def Waveform.sample (w : Waveform) (phase : ℝ) : ℝ :=
  match w with
  | .Sine => Real.sin phase
  | .Pulse => if phase < Real.pi then 1 else -1
  | .Saw => phase / Real.pi - 1

/-- Oscillator state (struct Oscillator). -/
structure Oscillator where
  current_phase : ℝ
  current_freq : ℝ
  wave : Waveform

/-- Default impl for Oscillator; the wall-clock nanosecond count is the
explicit parameter nanos, of which the source keeps nanos % 360. -/
noncomputable def Oscillator.default (nanos : ℕ) : Oscillator :=
  { current_phase := ((nanos % 360 : ℕ) : ℝ), current_freq := 0, wave := .Saw }

/-- One oscillator tick (impl Iterator for Oscillator, fn next): emit the
sample at the pre-advance phase, then commit the advanced, wrapped phase. -/
noncomputable def Oscillator.next (o : Oscillator) : ℝ × Oscillator :=
  let next_phase := f32Rem (o.current_phase + tau * o.current_freq / (OVERSAMPLE_RATE : ℝ)) tau
  (o.wave.sample o.current_phase, { o with current_phase := next_phase })

/-- Cascaded one-pole low-pass filter (struct Filter<N>); the pole count is
the length of last_per_pole. -/
structure Filter' where
  alpha : ℝ
  last_per_pole : List ℝ

/-- Filter::calculate_alpha. -/
noncomputable def Filter'.calculate_alpha (cutoff : ℝ) : ℝ :=
  let y := 1 - Real.cos (tau * cutoff / (OVERSAMPLE_RATE : ℝ));
  -y + Real.sqrt (y ^ 2 + 2 * y)

/-- Default impl for Filter (the Voice uses Filter<2>). -/
noncomputable def Filter'.default : Filter' :=
  { alpha := Filter'.calculate_alpha 5000, last_per_pole := [0, 0] }

/-- The pole loop of Filter::process: each stage output feeds the next and
replaces that pole's history. -/
noncomputable def Filter'.processAux (alpha : ℝ) : ℝ → List ℝ → ℝ × List ℝ
  | sample, [] => (sample, [])
  | sample, last :: rest =>
    let s := sample * alpha + (1 - alpha) * last
    let r := Filter'.processAux alpha s rest
    (r.1, s :: r.2)

/-- Filter::process. -/
noncomputable def Filter'.process (f : Filter') (sample : ℝ) : ℝ × Filter' :=
  let r := Filter'.processAux f.alpha sample f.last_per_pole
  (r.1, { f with last_per_pole := r.2 })

/-- Index-carrying map, modelling iter().enumerate() loops. -/
def mapWithIdx {α : Type} (f : ℕ → α → α) : ℕ → List α → List α
  | _, [] => []
  | i, a :: rest => f i a :: mapWithIdx f (i + 1) rest

/-- One monophonic voice (struct Voice). -/
structure Voice where
  on' : Bool
  note : ℕ
  detune : ℕ
  oscillators : List Oscillator
  filter : Filter'
  amp_eg : Adsr

/-- Voice::new; the three oscillator Default seeds are explicit. -/
noncomputable def Voice.new (amp_env_config : AdsrConfig) (s0 s1 s2 : ℕ) : Voice :=
  { on' := false, note := 0, detune := 5,
    oscillators := [Oscillator.default s0, Oscillator.default s1, Oscillator.default s2],
    filter := Filter'.default, amp_eg := Adsr.new amp_env_config }

/-- Voice::begin_note: retune every oscillator (equal temperament with the
detune spread map_range(index, (0, num_oscs), (-detune, +detune))), then
restart the envelope at Attack(0, current emitted value) and store the new
velocity ratio.  The source computes the attack start point by one call to
amp_eg.next() whose segment effect is immediately overwritten. -/
noncomputable def Voice.begin_note (v : Voice) (new_note new_vel : ℕ) : Voice :=
  let detune_amount : ℝ := (v.detune : ℝ) / 100
  let num_oscs : ℝ := (v.oscillators.length : ℝ)
  let oscs := mapWithIdx (fun index o =>
    { o with current_freq :=
        (2 : ℝ) ^ ((((new_note : ℝ)
            + map_range (index : ℝ) 0 num_oscs (-detune_amount) detune_amount) - 69) / 12)
          * 440 }) 0 v.oscillators
  let e := v.amp_eg.next
  { v with
    on' := true
    note := new_note
    oscillators := oscs
    amp_eg := { e.2 with segment := .Attack 0 e.1, velocity_ratio := (new_vel : ℚ) / 127 } }

/-- Voice::end_note: capture the release start level (sustain_amount when in
Sustain, otherwise the next emitted envelope value) and restart the envelope
at Release(0, start level). -/
def Voice.end_note (v : Voice) : Voice :=
  if v.amp_eg.segment = .Sustain then
    { v with amp_eg := { v.amp_eg with segment := .Release 0 v.amp_eg.config.sustain_amount } }
  else
    let e := v.amp_eg.next
    { v with amp_eg := { e.2 with segment := .Release 0 e.1 } }

/-- Voice::check_note_done: the lazy reuse check clears the on flag exactly
when the envelope has reached Off. -/
def Voice.check_note_done (v : Voice) : Voice :=
  if v.amp_eg.segment = .Off then { v with on' := false } else v

/-- Tick every oscillator of a bank once, collecting samples and new states
(the flat_map over oscillators in Voice's next). -/
noncomputable def tickOscs : List Oscillator → List ℝ × List Oscillator
  | [] => ([], [])
  | o :: rest =>
    let a := o.next
    let r := tickOscs rest
    (a.1 :: r.1, a.2 :: r.2)

/-- One voice tick (impl Iterator for Voice, fn next): average the oscillator
samples, filter the mix, scale by the next envelope value. -/
noncomputable def Voice.next (v : Voice) : ℝ × Voice :=
  let o := tickOscs v.oscillators
  let osc_mix : ℝ := o.1.sum / (v.oscillators.length : ℝ)
  let f := v.filter.process osc_mix
  let e := v.amp_eg.next
  (f.1 * ((e.1 : ℚ) : ℝ),
   { v with oscillators := o.2, filter := f.2, amp_eg := e.2 })

/-- The synth: a fixed pool of voices (struct Synth). -/
structure Synth where
  voices : List Voice

/-- Synth::new: n voices sharing one default envelope config; seed i j is the
wall-clock seed of voice i's oscillator j. -/
noncomputable def Synth.new (n : ℕ) (seed : ℕ → ℕ → ℕ) : Synth :=
  { voices := (List.range n).map (fun i => Voice.new AdsrConfig.default (seed i 0) (seed i 1) (seed i 2)) }

/-- The scan of Synth::get_playing_voice: run check_note_done on each voice
in order and stop at the first that is on and sounds the requested note.
Returns the (partially checked) voice list and the found index. -/
def scanPlaying (note : ℕ) : List Voice → List Voice × Option ℕ
  | [] => ([], none)
  | v :: rest =>
    let v' := v.check_note_done
    if v'.on' = true ∧ v'.note = note then (v' :: rest, some 0)
    else
      let r := scanPlaying note rest
      (v' :: r.1, r.2.map (· + 1))

/-- The scan of Synth::get_new_voice: run check_note_done on each voice in
order and stop at the first that is not on. -/
def scanNew : List Voice → List Voice × Option ℕ
  | [] => ([], none)
  | v :: rest =>
    let v' := v.check_note_done
    if v'.on' = false then (v' :: rest, some 0)
    else
      let r := scanNew rest
      (v' :: r.1, r.2.map (· + 1))

/-- Apply f to the list element at index i (the in-place mutation of the
voice returned by a scan). -/
def modifyAt (f : Voice → Voice) : ℕ → List Voice → List Voice
  | _, [] => []
  | 0, v :: rest => f v :: rest
  | n + 1, v :: rest => v :: modifyAt f n rest

/-- Synth::try_begin_note: prefer the voice already sounding the note, else
the first free voice, else fail.  The bool is Result::is_ok. -/
noncomputable def Synth.try_begin_note (s : Synth) (note vel : ℕ) : Bool × Synth :=
  let sp := scanPlaying note s.voices
  match sp.2 with
  | some i => (true, ⟨modifyAt (fun v => v.begin_note note vel) i sp.1⟩)
  | none =>
    let sn := scanNew sp.1
    match sn.2 with
    | some i => (true, ⟨modifyAt (fun v => v.begin_note note vel) i sn.1⟩)
    | none => (false, ⟨sn.1⟩)

/-- Synth::try_end_note: end the voice sounding the note, else fail. -/
def Synth.try_end_note (s : Synth) (note : ℕ) : Bool × Synth :=
  let sp := scanPlaying note s.voices
  match sp.2 with
  | some i => (true, ⟨modifyAt (fun v => v.end_note) i sp.1⟩)
  | none => (false, ⟨sp.1⟩)

/-- Tick every voice once, collecting outputs and new states (the flat_map
over voices inside Synth's next closure). -/
noncomputable def tickVoices : List Voice → List ℝ × List Voice
  | [] => ([], [])
  | v :: rest =>
    let a := v.next
    let r := tickVoices rest
    (a.1 :: r.1, a.2 :: r.2)

/-- The per-voice contributions of one output sample: each voice output is
scaled by 0.75 and clipped from above by min(·, 1.0) before summing. -/
noncomputable def contributions (vs : List Voice) : List ℝ :=
  (tickVoices vs).1.map (fun x => min (x * 0.75) 1)

/-- The closure body of Synth's next: sum the clipped contributions of one
tick of every voice. -/
noncomputable def mixClosure (vs : List Voice) : ℝ × List Voice :=
  ((contributions vs).sum, (tickVoices vs).2)

/-- State of a Rust Range iterator 0..stop. -/
structure RangeIter where
  cur : ℕ
  stop : ℕ

/-- Range iterator step. -/
def RangeIter.next (r : RangeIter) : Option ℕ × RangeIter :=
  if r.cur < r.stop then (some r.cur, ⟨r.cur + 1, r.stop⟩) else (none, r)

/-- One step of a lazy map adapter over a range iterator whose closure
mutates captured state of type σ: pulling one element runs the closure
exactly once (or not at all when the range is exhausted). -/
def mapIterNext {σ : Type} (f : σ → ℝ × σ) (r : RangeIter) (st : σ) : Option ℝ × RangeIter × σ :=
  match r.next with
  | (none, r') => (none, r', st)
  | (some _, r') =>
    let a := f st
    (some a.1, r', a.2)

/-- One output sample (impl Iterator for Synth, fn next):
(0 .. OVERSAMPLE_RATIO).map(closure).nth(0).unwrap(), modelled by one step of
the lazy map adapter; getD 0 models the unwrap of the always-Some element. -/
noncomputable def Synth.next (s : Synth) : Option ℝ × Synth :=
  let r := mapIterNext mixClosure ⟨0, OVERSAMPLE_RATIO ⟩ s.voices
  (some (r.1.getD 0), ⟨r.2.2⟩)

/-- A voice is currently sounding note n: it is on, tuned to n, and its
envelope has not reached Off (the lazy check would not clear it). -/
def Sounding (v : Voice) (n : ℕ) : Prop :=
  v.on' = true ∧ v.note = n ∧ v.amp_eg.segment ≠ .Off

/-- The voice at index i of a synth (junk voice when out of range). -/
noncomputable def vAt (s : Synth) (i : ℕ) : Voice :=
  (s.voices[i]?).getD (Voice.new AdsrConfig.default 0 0 0)

/-- Synth states reachable through the public operations. -/
inductive Reachable : Synth → Prop where
  | new (n : ℕ) (seed : ℕ → ℕ → ℕ) : Reachable (Synth.new n seed)
  | begin_ (s : Synth) (note vel : ℕ) : Reachable s → Reachable (s.try_begin_note note vel).2
  | end_ (s : Synth) (note : ℕ) : Reachable s → Reachable (s.try_end_note note).2
  | tick (s : Synth) : Reachable s → Reachable (s.next).2

/-- A voice that is not on has an Off envelope (invariant of reachable
states; the converse direction is established lazily by check_note_done). -/
def InvOnOff (s : Synth) : Prop :=
  ∀ (i : ℕ) (v : Voice), s.voices[i]? = some v → v.on' = false → v.amp_eg.segment = .Off

/-- Every note is sounding on at most one voice. -/
def UniqueSounding (s : Synth) : Prop :=
  ∀ (n i j : ℕ) (vi vj : Voice), s.voices[i]? = some vi → s.voices[j]? = some vj →
    Sounding vi n → Sounding vj n → i = j

/-- Fast-attack envelope configuration used to exercise the Attack→Decay
transition within two ticks. -/
def cfgFast : AdsrConfig :=
  { attack_time := 1/192000, decay_time := 1/2, sustain_amount := 1/2, release_time := 1 }

/-- A fresh voice given a note-on with the fast-attack configuration. -/
noncomputable def vC2 : Voice := (Voice.new cfgFast 0 0 0).begin_note 60 64

/-- The envelope state a note-on leaves behind with the fast-attack
configuration and velocity 64. -/
def envC2 : Adsr := { config := cfgFast, segment := .Attack 0 0, velocity_ratio := 64/127 }

/-- A saw oscillator sitting at phase 0. -/
noncomputable def oscSaw : Oscillator := { current_phase := 0, current_freq := 0, wave := .Saw }

/-- A voice whose filter history drives its output below -4/3. -/
noncomputable def vBad : Voice :=
  { on' := true
    note := 60
    detune := 5
    oscillators := [oscSaw, oscSaw, oscSaw]
    filter := { alpha := 1/2, last_per_pole := [-2, -2] }
    amp_eg :=
      { config := { attack_time := 1/2, decay_time := 1/2, sustain_amount := 1, release_time := 1 }
        segment := .Sustain
        velocity_ratio := 1 } }

/-- A one-voice synth holding vBad. -/
noncomputable def sBad : Synth := ⟨[vBad]⟩

/-- A voice whose note ended and whose release tail has finished (envelope
Off) but whose on flag has not been lazily cleared yet. -/
noncomputable def v8a : Voice :=
  { on' := true
    note := 5
    detune := 5
    oscillators := [oscSaw, oscSaw, oscSaw]
    filter := { alpha := 1/2, last_per_pole := [0, 0] }
    amp_eg := { config := AdsrConfig.default, segment := .Off, velocity_ratio := 1/2 } }

/-- A voice sounding note 60 in Sustain. -/
noncomputable def v8b : Voice :=
  { v8a with
    note := 60
    amp_eg := { config := AdsrConfig.default, segment := .Sustain, velocity_ratio := 1/2 } }

/-- A two-voice synth with a stale Off voice before the sounding voice. -/
noncomputable def s8c : Synth := ⟨[v8a, v8b]⟩

/-- A fresh one-voice synth (all oscillator seeds 0). -/
noncomputable def s0w : Synth := Synth.new 1 (fun _ _ => 0)

/-- The synth s0w after note-on 60 with velocity 64. -/
noncomputable def s1w : Synth := (s0w.try_begin_note 60 64).2

/-- The synth s1w after note-off 60: its voice is releasing. -/
noncomputable def s2w : Synth := (s1w.try_end_note 60).2

/-- A fresh voice with the detune field zeroed. -/
noncomputable def vDet0 : Voice := { Voice.new AdsrConfig.default 0 0 0 with detune := 0 }

/-- The single voice of s1w: the fresh voice, lazily checked, given note-on
60 with velocity 64. -/
noncomputable def v1w : Voice :=
  ((Voice.new AdsrConfig.default 0 0 0).check_note_done).begin_note 60 64

/-- The single voice of s2w: v1w after note-off (in Release). -/
noncomputable def v2w : Voice := v1w.end_note

theorem tau_pos : 0 < tau := by
  unfold tau
  exact mul_pos two_pos Real.pi_pos

theorem f32Rem_eq_fract {x y : ℝ} (hx : 0 ≤ x) (hy : 0 < y) :
    f32Rem x y = y * Int.fract (x / y) := by
  unfold f32Rem rtrunc
  rw [if_pos (div_nonneg hx hy.le), Int.fract, mul_sub, mul_comm y (x / y),
    div_mul_cancel₀ x hy.ne']

theorem f32Rem_nonneg {x y : ℝ} (hx : 0 ≤ x) (hy : 0 < y) : 0 ≤ f32Rem x y := by
  rw [f32Rem_eq_fract hx hy]
  exact mul_nonneg hy.le (Int.fract_nonneg _)

theorem f32Rem_lt {x y : ℝ} (hx : 0 ≤ x) (hy : 0 < y) : f32Rem x y < y := by
  rw [f32Rem_eq_fract hx hy]
  calc y * Int.fract (x / y) < y * 1 := by
        exact mul_lt_mul_of_pos_left (Int.fract_lt_one _) hy
    _ = y := mul_one y

theorem processAux_alpha_one (x : ℝ) (l : List ℝ) : (Filter'.processAux 1 x l).1 = x := by
  induction l generalizing x with
  | nil => rfl
  | cons a t ih => simp [Filter'.processAux, ih]

theorem mapWithIdx_getElem? {α : Type} (f : ℕ → α → α) (k j : ℕ) (l : List α) :
    (mapWithIdx f k l)[j]? = (l[j]?).map (f (k + j)) := by
  induction l generalizing k j with
  | nil => simp [mapWithIdx]
  | cons a t ih =>
    cases j with
    | zero => simp [mapWithIdx]
    | succ j =>
      have h : k + 1 + j = k + (j + 1) := by omega
      simp only [mapWithIdx, List.getElem?_cons_succ]
      rw [ih (k + 1) j, h]

theorem tickOscs_fst (l : List Oscillator) :
    (tickOscs l).1 = l.map (fun o => (o.next).1) := by
  induction l with
  | nil => rfl
  | cons o t ih => simp [tickOscs, ih]

theorem tickOscs_snd (l : List Oscillator) :
    (tickOscs l).2 = l.map (fun o => (o.next).2) := by
  induction l with
  | nil => rfl
  | cons o t ih => simp [tickOscs, ih]

theorem tickVoices_fst (l : List Voice) :
    (tickVoices l).1 = l.map (fun v => (v.next).1) := by
  induction l with
  | nil => rfl
  | cons v t ih => simp [tickVoices, ih]

theorem tickVoices_snd (l : List Voice) :
    (tickVoices l).2 = l.map (fun v => (v.next).2) := by
  induction l with
  | nil => rfl
  | cons v t ih => simp [tickVoices, ih]

theorem Adsr.next_config (a : Adsr) : ((a.next).2).config = a.config := rfl

theorem Adsr.next_vr (a : Adsr) : ((a.next).2).velocity_ratio = a.velocity_ratio := rfl

theorem Adsr.next_off {a : Adsr} (h : a.segment = .Off) : ((a.next).2).segment = .Off := by
  simp [Adsr.next, h]

theorem Voice.next_on (v : Voice) : ((v.next).2).on' = v.on' := rfl

theorem Voice.next_note (v : Voice) : ((v.next).2).note = v.note := rfl

theorem Voice.next_amp (v : Voice) : ((v.next).2).amp_eg = (v.amp_eg.next).2 := rfl

theorem Voice.next_oscs (v : Voice) : ((v.next).2).oscillators = (tickOscs v.oscillators).2 := rfl

theorem Voice.next_sounding {v : Voice} {m : ℕ} (h : Sounding ((v.next).2) m) : Sounding v m := by
  refine ⟨h.1, h.2.1, fun hoff => h.2.2 ?_⟩
  rw [Voice.next_amp]
  exact Adsr.next_off hoff

theorem check_on_true {v : Voice} :
    ((v.check_note_done).on' = true) ↔ (v.on' = true ∧ v.amp_eg.segment ≠ .Off) := by
  unfold Voice.check_note_done
  split
  · simp [*]
  · simp [*]

theorem check_on_false {v : Voice} :
    ((v.check_note_done).on' = false) ↔ (v.on' = false ∨ v.amp_eg.segment = .Off) := by
  unfold Voice.check_note_done
  split
  · simp [*]
  · simp [*]

theorem check_note (v : Voice) : (v.check_note_done).note = v.note := by
  unfold Voice.check_note_done
  split <;> rfl

theorem check_amp (v : Voice) : (v.check_note_done).amp_eg = v.amp_eg := by
  unfold Voice.check_note_done
  split <;> rfl

theorem check_oscs (v : Voice) : (v.check_note_done).oscillators = v.oscillators := by
  unfold Voice.check_note_done
  split <;> rfl

theorem check_filter (v : Voice) : (v.check_note_done).filter = v.filter := by
  unfold Voice.check_note_done
  split <;> rfl

theorem check_detune (v : Voice) : (v.check_note_done).detune = v.detune := by
  unfold Voice.check_note_done
  split <;> rfl

theorem check_id {v : Voice} (h : v.amp_eg.segment ≠ .Off) : v.check_note_done = v := by
  unfold Voice.check_note_done
  rw [if_neg h]

theorem check_sounding {v : Voice} {n : ℕ} :
    Sounding (v.check_note_done) n ↔ Sounding v n := by
  unfold Sounding
  rw [check_note, check_amp]
  constructor
  · rintro ⟨h1, h2, h3⟩
    exact ⟨(check_on_true.mp h1).1, h2, h3⟩
  · rintro ⟨h1, h2, h3⟩
    exact ⟨check_on_true.mpr ⟨h1, h3⟩, h2, h3⟩

theorem check_pointwise_inv {v : Voice} (h : v.on' = false → v.amp_eg.segment = .Off) :
    (v.check_note_done).on' = false → (v.check_note_done).amp_eg.segment = .Off := by
  intro hf
  rw [check_amp]
  rcases check_on_false.mp hf with h1 | h2
  · exact h h1
  · exact h2

theorem begin_on (v : Voice) (n vel : ℕ) : ((v.begin_note n vel)).on' = true := rfl

theorem begin_note_note (v : Voice) (n vel : ℕ) : ((v.begin_note n vel)).note = n := rfl

theorem begin_segment (v : Voice) (n vel : ℕ) :
    ((v.begin_note n vel)).amp_eg.segment = .Attack 0 ((v.amp_eg.next).1) := rfl

theorem begin_vr (v : Voice) (n vel : ℕ) :
    ((v.begin_note n vel)).amp_eg.velocity_ratio = (vel : ℚ) / 127 := rfl

theorem begin_sounding {v : Voice} {n vel m : ℕ} :
    Sounding (v.begin_note n vel) m ↔ m = n := by
  unfold Sounding
  rw [begin_on, begin_note_note, begin_segment]
  simp [eq_comm]

theorem end_on (v : Voice) : ((v.end_note)).on' = v.on' := by
  unfold Voice.end_note
  split <;> rfl

theorem end_note_note (v : Voice) : ((v.end_note)).note = v.note := by
  unfold Voice.end_note
  split <;> rfl

theorem end_segment_not_sustain {v : Voice} (h : v.amp_eg.segment ≠ .Sustain) :
    ((v.end_note)).amp_eg.segment = .Release 0 ((v.amp_eg.next).1) := by
  unfold Voice.end_note
  rw [if_neg h]

theorem end_segment_ne_off (v : Voice) : ((v.end_note)).amp_eg.segment ≠ .Off := by
  unfold Voice.end_note
  split <;> simp

theorem end_sounding {v : Voice} {m : ℕ} :
    Sounding (v.end_note) m ↔ (v.on' = true ∧ v.note = m) := by
  unfold Sounding
  rw [end_on, end_note_note]
  simp [end_segment_ne_off]


theorem check_idem (v : Voice) : (v.check_note_done).check_note_done = v.check_note_done := by
  unfold Voice.check_note_done
  by_cases h : v.amp_eg.segment = .Off
  · simp [h]
  · simp [h]

theorem scanPlaying_cond {v : Voice} {n : ℕ} :
    ((v.check_note_done).on' = true ∧ (v.check_note_done).note = n) ↔ Sounding v n := by
  rw [check_note, check_on_true]
  unfold Sounding
  tauto

theorem scanPlaying_none_iff (n : ℕ) (vs : List Voice) :
    (scanPlaying n vs).2 = none ↔ ∀ v ∈ vs, ¬ Sounding v n := by
  induction vs with
  | nil => simp [scanPlaying]
  | cons v t ih =>
    by_cases h : ((v.check_note_done).on' = true ∧ (v.check_note_done).note = n)
    · have hs : Sounding v n := scanPlaying_cond.mp h
      simp [scanPlaying, if_pos h, hs]
    · have hs : ¬ Sounding v n := fun hs => h (scanPlaying_cond.mpr hs)
      simp [scanPlaying, if_neg h, Option.map_eq_none', ih, hs]

theorem scanPlaying_none_fst {n : ℕ} {vs : List Voice} (h : (scanPlaying n vs).2 = none) :
    (scanPlaying n vs).1 = vs.map Voice.check_note_done := by
  induction vs with
  | nil => simp [scanPlaying]
  | cons v t ih =>
    by_cases hc : ((v.check_note_done).on' = true ∧ (v.check_note_done).note = n)
    · simp [scanPlaying, if_pos hc] at h
    · simp [scanPlaying, if_neg hc, Option.map_eq_none'] at h
      simp [scanPlaying, if_neg hc, ih h]

theorem scanPlaying_some {n : ℕ} {vs : List Voice} {i : ℕ}
    (h : (scanPlaying n vs).2 = some i) :
    ∃ v, vs[i]? = some v ∧ Sounding v n ∧
      ∀ (j : ℕ) (w : Voice), j < i → vs[j]? = some w → ¬ Sounding w n := by
  induction vs generalizing i with
  | nil => simp [scanPlaying] at h
  | cons v t ih =>
    by_cases hc : ((v.check_note_done).on' = true ∧ (v.check_note_done).note = n)
    · simp [scanPlaying, if_pos hc] at h
      subst h
      exact ⟨v, by simp, scanPlaying_cond.mp hc, fun j w hj _ => absurd hj (by omega)⟩
    · simp [scanPlaying, if_neg hc, Option.map_eq_some'] at h
      obtain ⟨i', hi', rfl⟩ := h
      obtain ⟨w, hw, hsw, hearlier⟩ := ih hi'
      refine ⟨w, by simpa using hw, hsw, ?_⟩
      intro j w' hj hw'
      cases j with
      | zero =>
        have hv : w' = v := by simpa using hw'.symm
        subst hv
        exact fun hs => hc (scanPlaying_cond.mpr hs)
      | succ j =>
        exact hearlier j w' (by omega) (by simpa using hw')

theorem scanPlaying_some_fst {n : ℕ} {vs : List Voice} {i : ℕ}
    (h : (scanPlaying n vs).2 = some i) (j : ℕ) :
    (scanPlaying n vs).1[j]? =
      if j ≤ i then (vs[j]?).map Voice.check_note_done else vs[j]? := by
  induction vs generalizing i j with
  | nil =>
    simp [scanPlaying]
  | cons v t ih =>
    by_cases hc : ((v.check_note_done).on' = true ∧ (v.check_note_done).note = n)
    · simp [scanPlaying, if_pos hc] at h
      subst h
      cases j with
      | zero => simp [scanPlaying, if_pos hc]
      | succ j => simp [scanPlaying, if_pos hc]
    · simp [scanPlaying, if_neg hc, Option.map_eq_some'] at h
      obtain ⟨i', hi', rfl⟩ := h
      cases j with
      | zero => simp [scanPlaying, if_neg hc]
      | succ j =>
        by_cases hj : j ≤ i'
        · simp only [scanPlaying, if_neg hc, List.getElem?_cons_succ]
          rw [ih hi' j, if_pos hj, if_pos (by omega : j + 1 ≤ i' + 1)]
        · simp only [scanPlaying, if_neg hc, List.getElem?_cons_succ]
          rw [ih hi' j, if_neg hj, if_neg (by omega : ¬ (j + 1 ≤ i' + 1))]

theorem scanNew_none_iff (vs : List Voice) :
    (scanNew vs).2 = none ↔ ∀ v ∈ vs, (v.on' = true ∧ v.amp_eg.segment ≠ .Off) := by
  induction vs with
  | nil => simp [scanNew]
  | cons v t ih =>
    by_cases h : ((v.check_note_done).on' = false)
    · have hv : ¬ (v.on' = true ∧ v.amp_eg.segment ≠ .Off) := by
        rcases check_on_false.mp h with h1 | h2
        · simp [h1]
        · simp [h2]
      simp [scanNew, if_pos h, hv]
    · have hb : ((v.check_note_done).on' = true) := by
        cases hh : (v.check_note_done).on' with
        | false => exact absurd hh h
        | true => rfl
      have hv : v.on' = true ∧ v.amp_eg.segment ≠ .Off := check_on_true.mp hb
      simp [scanNew, if_neg h, Option.map_eq_none', ih, hv]

theorem scanNew_none_fst {vs : List Voice} (h : (scanNew vs).2 = none) :
    (scanNew vs).1 = vs.map Voice.check_note_done := by
  induction vs with
  | nil => simp [scanNew]
  | cons v t ih =>
    by_cases hc : ((v.check_note_done).on' = false)
    · simp [scanNew, if_pos hc] at h
    · simp [scanNew, if_neg hc, Option.map_eq_none'] at h
      simp [scanNew, if_neg hc, ih h]

theorem scanNew_some {vs : List Voice} {i : ℕ} (h : (scanNew vs).2 = some i) :
    ∃ v, vs[i]? = some v ∧ (v.on' = false ∨ v.amp_eg.segment = .Off) ∧
      ∀ (j : ℕ) (w : Voice), j < i → vs[j]? = some w →
        (w.on' = true ∧ w.amp_eg.segment ≠ .Off) := by
  induction vs generalizing i with
  | nil => simp [scanNew] at h
  | cons v t ih =>
    by_cases hc : ((v.check_note_done).on' = false)
    · simp [scanNew, if_pos hc] at h
      subst h
      exact ⟨v, by simp, check_on_false.mp hc, fun j w hj _ => absurd hj (by omega)⟩
    · simp [scanNew, if_neg hc, Option.map_eq_some'] at h
      obtain ⟨i', hi', rfl⟩ := h
      obtain ⟨w, hw, hfw, hearlier⟩ := ih hi'
      have hb : ((v.check_note_done).on' = true) := by
        cases hh : (v.check_note_done).on' with
        | false => exact absurd hh hc
        | true => rfl
      refine ⟨w, by simpa using hw, hfw, ?_⟩
      intro j w' hj hw'
      cases j with
      | zero =>
        have hv : w' = v := by simpa using hw'.symm
        subst hv
        exact check_on_true.mp hb
      | succ j =>
        exact hearlier j w' (by omega) (by simpa using hw')

theorem scanNew_some_fst {vs : List Voice} {i : ℕ}
    (h : (scanNew vs).2 = some i) (j : ℕ) :
    (scanNew vs).1[j]? =
      if j ≤ i then (vs[j]?).map Voice.check_note_done else vs[j]? := by
  induction vs generalizing i j with
  | nil =>
    simp [scanNew]
  | cons v t ih =>
    by_cases hc : ((v.check_note_done).on' = false)
    · simp [scanNew, if_pos hc] at h
      subst h
      cases j with
      | zero => simp [scanNew, if_pos hc]
      | succ j => simp [scanNew, if_pos hc]
    · simp [scanNew, if_neg hc, Option.map_eq_some'] at h
      obtain ⟨i', hi', rfl⟩ := h
      cases j with
      | zero => simp [scanNew, if_neg hc]
      | succ j =>
        by_cases hj : j ≤ i'
        · simp only [scanNew, if_neg hc, List.getElem?_cons_succ]
          rw [ih hi' j, if_pos hj, if_pos (by omega : j + 1 ≤ i' + 1)]
        · simp only [scanNew, if_neg hc, List.getElem?_cons_succ]
          rw [ih hi' j, if_neg hj, if_neg (by omega : ¬ (j + 1 ≤ i' + 1))]

theorem modifyAt_getElem? (f : Voice → Voice) (i : ℕ) (l : List Voice) (j : ℕ) :
    (modifyAt f i l)[j]? = if j = i then (l[j]?).map f else l[j]? := by
  induction l generalizing i j with
  | nil =>
    simp [modifyAt]
  | cons v t ih =>
    cases i with
    | zero =>
      cases j with
      | zero => simp [modifyAt]
      | succ j => simp [modifyAt]
    | succ i =>
      cases j with
      | zero => simp [modifyAt]
      | succ j =>
        by_cases hj : j = i
        · simp only [modifyAt, List.getElem?_cons_succ]
          rw [ih i j, if_pos hj, if_pos (by omega : j + 1 = i + 1)]
        · simp only [modifyAt, List.getElem?_cons_succ]
          rw [ih i j, if_neg hj, if_neg (by omega : ¬ (j + 1 = i + 1))]

theorem try_begin_found (s : Synth) (n vel : ℕ) {i : ℕ}
    (hsp : (scanPlaying n s.voices).2 = some i) :
    (s.try_begin_note n vel).1 = true
    ∧ ∀ j : ℕ, (s.try_begin_note n vel).2.voices[j]? =
        if j = i then (s.voices[j]?).map (fun v => (v.check_note_done).begin_note n vel)
        else if j ≤ i then (s.voices[j]?).map Voice.check_note_done
        else s.voices[j]? := by
  have hres : s.try_begin_note n vel =
      (true, ⟨modifyAt (fun v => v.begin_note n vel) i (scanPlaying n s.voices).1⟩) := by
    unfold Synth.try_begin_note
    dsimp only
    rw [hsp]
  refine ⟨by rw [hres], ?_⟩
  intro j
  rw [hres]
  show (modifyAt (fun v => v.begin_note n vel) i (scanPlaying n s.voices).1)[j]? = _
  rw [modifyAt_getElem?, scanPlaying_some_fst hsp j]
  by_cases hj : j = i
  · subst hj
    rw [if_pos rfl, if_pos rfl, if_pos (le_refl j), Option.map_map]
    rfl
  · rw [if_neg hj, if_neg hj]

theorem try_begin_fresh (s : Synth) (n vel : ℕ) {i : ℕ}
    (hsp : (scanPlaying n s.voices).2 = none)
    (hsn : (scanNew (scanPlaying n s.voices).1).2 = some i) :
    (s.try_begin_note n vel).1 = true
    ∧ ∀ j : ℕ, (s.try_begin_note n vel).2.voices[j]? =
        if j = i then (s.voices[j]?).map (fun v => (v.check_note_done).begin_note n vel)
        else (s.voices[j]?).map Voice.check_note_done := by
  have hres : s.try_begin_note n vel =
      (true, ⟨modifyAt (fun v => v.begin_note n vel) i (scanNew (scanPlaying n s.voices).1).1⟩) := by
    unfold Synth.try_begin_note
    dsimp only
    rw [hsp]
    dsimp only
    rw [hsn]
  refine ⟨by rw [hres], ?_⟩
  intro j
  rw [hres]
  show (modifyAt (fun v => v.begin_note n vel) i (scanNew (scanPlaying n s.voices).1).1)[j]? = _
  rw [modifyAt_getElem?, scanNew_some_fst hsn j, scanPlaying_none_fst hsp]
  simp only [List.getElem?_map]
  by_cases hj : j = i
  · subst hj
    rw [if_pos rfl, if_pos rfl, if_pos (le_refl j)]
    cases hv : s.voices[j]? with
    | none => rfl
    | some w => simp [check_idem]
  · rw [if_neg hj, if_neg hj]
    by_cases hji : j ≤ i
    · rw [if_pos hji]
      cases hv : s.voices[j]? with
      | none => rfl
      | some w => simp [check_idem]
    · rw [if_neg hji]

theorem try_begin_fail (s : Synth) (n vel : ℕ)
    (hsp : (scanPlaying n s.voices).2 = none)
    (hsn : (scanNew (scanPlaying n s.voices).1).2 = none) :
    (s.try_begin_note n vel).1 = false
    ∧ (s.try_begin_note n vel).2.voices = s.voices.map Voice.check_note_done := by
  have hres : s.try_begin_note n vel = (false, ⟨(scanNew (scanPlaying n s.voices).1).1⟩) := by
    unfold Synth.try_begin_note
    dsimp only
    rw [hsp]
    dsimp only
    rw [hsn]
  refine ⟨by rw [hres], ?_⟩
  rw [hres]
  show (scanNew (scanPlaying n s.voices).1).1 = _
  rw [scanNew_none_fst hsn, scanPlaying_none_fst hsp, List.map_map]
  have hcc : Voice.check_note_done ∘ Voice.check_note_done = Voice.check_note_done :=
    funext check_idem
  rw [hcc]

theorem try_end_found (s : Synth) (n : ℕ) {i : ℕ}
    (hsp : (scanPlaying n s.voices).2 = some i) :
    (s.try_end_note n).1 = true
    ∧ ∀ j : ℕ, (s.try_end_note n).2.voices[j]? =
        if j = i then (s.voices[j]?).map (fun v => (v.check_note_done).end_note)
        else if j ≤ i then (s.voices[j]?).map Voice.check_note_done
        else s.voices[j]? := by
  have hres : s.try_end_note n =
      (true, ⟨modifyAt (fun v => v.end_note) i (scanPlaying n s.voices).1⟩) := by
    unfold Synth.try_end_note
    dsimp only
    rw [hsp]
  refine ⟨by rw [hres], ?_⟩
  intro j
  rw [hres]
  show (modifyAt (fun v => v.end_note) i (scanPlaying n s.voices).1)[j]? = _
  rw [modifyAt_getElem?, scanPlaying_some_fst hsp j]
  by_cases hj : j = i
  · subst hj
    rw [if_pos rfl, if_pos rfl, if_pos (le_refl j), Option.map_map]
    rfl
  · rw [if_neg hj, if_neg hj]

theorem try_end_fail (s : Synth) (n : ℕ)
    (hsp : (scanPlaying n s.voices).2 = none) :
    (s.try_end_note n).1 = false
    ∧ (s.try_end_note n).2.voices = s.voices.map Voice.check_note_done := by
  have hres : s.try_end_note n = (false, ⟨(scanPlaying n s.voices).1⟩) := by
    unfold Synth.try_end_note
    dsimp only
    rw [hsp]
  exact ⟨by rw [hres], by rw [hres]; exact scanPlaying_none_fst hsp⟩

theorem synth_next_fst (s : Synth) : (s.next).1 = some ((contributions s.voices).sum) := by
  unfold Synth.next mapIterNext RangeIter.next
  norm_num [ OVERSAMPLE_RATIO, mixClosure]

theorem synth_next_voices (s : Synth) :
    (s.next).2.voices = s.voices.map (fun v => (v.next).2) := by
  unfold Synth.next mapIterNext RangeIter.next
  norm_num [ OVERSAMPLE_RATIO, mixClosure, tickVoices_snd]

theorem invOnOff_new (n : ℕ) (seed : ℕ → ℕ → ℕ) : InvOnOff (Synth.new n seed) := by
  intro i v hv _
  simp only [Synth.new, List.getElem?_map, Option.map_eq_some'] at hv
  obtain ⟨k, -, rfl⟩ := hv
  rfl

theorem uniqueSounding_new (n : ℕ) (seed : ℕ → ℕ → ℕ) : UniqueSounding (Synth.new n seed) := by
  intro m i j vi vj hvi hvj hsi hsj
  simp only [Synth.new, List.getElem?_map, Option.map_eq_some'] at hvi
  obtain ⟨k, -, rfl⟩ := hvi
  simp [Sounding, Voice.new] at hsi

theorem try_begin_invOnOff (s : Synth) (n vel : ℕ) (h : InvOnOff s) :
    InvOnOff (s.try_begin_note n vel).2 := by
  intro j v hv hvf
  cases hsp : (scanPlaying n s.voices).2 with
  | some i =>
    obtain ⟨-, hpt⟩ := try_begin_found s n vel hsp
    rw [hpt j] at hv
    by_cases hj : j = i
    · subst hj
      rw [if_pos rfl] at hv
      obtain ⟨w, -, rfl⟩ := Option.map_eq_some'.mp hv
      exact absurd hvf (by simp [begin_on])
    · rw [if_neg hj] at hv
      by_cases hji : j ≤ i
      · rw [if_pos hji] at hv
        obtain ⟨w, hw, rfl⟩ := Option.map_eq_some'.mp hv
        exact check_pointwise_inv (h j w hw) hvf
      · rw [if_neg hji] at hv
        exact h j v hv hvf
  | none =>
    cases hsn : (scanNew (scanPlaying n s.voices).1).2 with
    | some i =>
      obtain ⟨-, hpt⟩ := try_begin_fresh s n vel hsp hsn
      rw [hpt j] at hv
      by_cases hj : j = i
      · subst hj
        rw [if_pos rfl] at hv
        obtain ⟨w, -, rfl⟩ := Option.map_eq_some'.mp hv
        exact absurd hvf (by simp [begin_on])
      · rw [if_neg hj] at hv
        obtain ⟨w, hw, rfl⟩ := Option.map_eq_some'.mp hv
        exact check_pointwise_inv (h j w hw) hvf
    | none =>
      obtain ⟨-, hlist⟩ := try_begin_fail s n vel hsp hsn
      rw [hlist, List.getElem?_map] at hv
      obtain ⟨w, hw, rfl⟩ := Option.map_eq_some'.mp hv
      exact check_pointwise_inv (h j w hw) hvf

theorem try_end_invOnOff (s : Synth) (n : ℕ) (h : InvOnOff s) :
    InvOnOff (s.try_end_note n).2 := by
  intro j v hv hvf
  cases hsp : (scanPlaying n s.voices).2 with
  | some i =>
    obtain ⟨-, hpt⟩ := try_end_found s n hsp
    rw [hpt j] at hv
    by_cases hj : j = i
    · subst hj
      rw [if_pos rfl] at hv
      obtain ⟨w, hw, rfl⟩ := Option.map_eq_some'.mp hv
      obtain ⟨w', hw', hsw', -⟩ := scanPlaying_some hsp
      rw [hw] at hw'
      injection hw' with he
      subst he
      have hon : ((w.check_note_done).end_note).on' = true := by
        rw [end_on]
        exact check_on_true.mpr ⟨hsw'.1, hsw'.2.2⟩
      rw [hon] at hvf
      cases hvf
    · rw [if_neg hj] at hv
      by_cases hji : j ≤ i
      · rw [if_pos hji] at hv
        obtain ⟨w, hw, rfl⟩ := Option.map_eq_some'.mp hv
        exact check_pointwise_inv (h j w hw) hvf
      · rw [if_neg hji] at hv
        exact h j v hv hvf
  | none =>
    obtain ⟨-, hlist⟩ := try_end_fail s n hsp
    rw [hlist, List.getElem?_map] at hv
    obtain ⟨w, hw, rfl⟩ := Option.map_eq_some'.mp hv
    exact check_pointwise_inv (h j w hw) hvf

theorem tick_invOnOff (s : Synth) (h : InvOnOff s) : InvOnOff (s.next).2 := by
  intro j v hv hvf
  rw [synth_next_voices, List.getElem?_map] at hv
  obtain ⟨w, hw, rfl⟩ := Option.map_eq_some'.mp hv
  have hw0 : w.on' = false := by
    rw [← Voice.next_on w]
    exact hvf
  rw [Voice.next_amp]
  exact Adsr.next_off (h j w hw hw0)

theorem tick_unique (s : Synth) (h : UniqueSounding s) : UniqueSounding (s.next).2 := by
  intro m i j vi vj hvi hvj hsi hsj
  rw [synth_next_voices, List.getElem?_map] at hvi hvj
  obtain ⟨wi, hwi, rfl⟩ := Option.map_eq_some'.mp hvi
  obtain ⟨wj, hwj, rfl⟩ := Option.map_eq_some'.mp hvj
  exact h m i j wi wj hwi hwj (Voice.next_sounding hsi) (Voice.next_sounding hsj)

theorem try_end_status (s : Synth) (n : ℕ) :
    ∀ (j : ℕ) (vj : Voice), (s.try_end_note n).2.voices[j]? = some vj →
      ∃ w, s.voices[j]? = some w ∧ ∀ m : ℕ, (Sounding vj m ↔ Sounding w m) := by
  intro j vj hv
  cases hsp : (scanPlaying n s.voices).2 with
  | some i =>
    obtain ⟨-, hpt⟩ := try_end_found s n hsp
    rw [hpt j] at hv
    by_cases hj : j = i
    · subst hj
      rw [if_pos rfl] at hv
      obtain ⟨w, hw, rfl⟩ := Option.map_eq_some'.mp hv
      obtain ⟨w', hw', hsw', -⟩ := scanPlaying_some hsp
      rw [hw] at hw'
      injection hw' with he
      subst he
      refine ⟨w, hw, ?_⟩
      have hne : w.amp_eg.segment ≠ .Off := hsw'.2.2
      rw [check_id hne]
      intro m
      rw [end_sounding]
      unfold Sounding
      constructor
      · rintro ⟨h1, h2⟩
        exact ⟨h1, h2, hne⟩
      · rintro ⟨h1, h2, -⟩
        exact ⟨h1, h2⟩
    · rw [if_neg hj] at hv
      by_cases hji : j ≤ i
      · rw [if_pos hji] at hv
        obtain ⟨w, hw, rfl⟩ := Option.map_eq_some'.mp hv
        exact ⟨w, hw, fun m => check_sounding⟩
      · rw [if_neg hji] at hv
        exact ⟨vj, hv, fun m => Iff.rfl⟩
  | none =>
    obtain ⟨-, hlist⟩ := try_end_fail s n hsp
    rw [hlist, List.getElem?_map] at hv
    obtain ⟨w, hw, rfl⟩ := Option.map_eq_some'.mp hv
    exact ⟨w, hw, fun m => check_sounding⟩

theorem try_end_unique (s : Synth) (n : ℕ) (h : UniqueSounding s) :
    UniqueSounding (s.try_end_note n).2 := by
  intro m i j vi vj hvi hvj hsi hsj
  obtain ⟨wi, hwi, hiffi⟩ := try_end_status s n i vi hvi
  obtain ⟨wj, hwj, hiffj⟩ := try_end_status s n j vj hvj
  exact h m i j wi wj hwi hwj ((hiffi m).mp hsi) ((hiffj m).mp hsj)

theorem try_begin_unique (s : Synth) (n vel : ℕ) (h : UniqueSounding s) :
    UniqueSounding (s.try_begin_note n vel).2 := by
  intro m i' j' vi vj hvi hvj hsi hsj
  cases hsp : (scanPlaying n s.voices).2 with
  | some i =>
    obtain ⟨-, hpt⟩ := try_begin_found s n vel hsp
    obtain ⟨w0, hw0, hsw0, -⟩ := scanPlaying_some hsp
    have hstat : ∀ (k : ℕ) (vk : Voice), k ≠ i →
        (s.try_begin_note n vel).2.voices[k]? = some vk →
        ∃ w, s.voices[k]? = some w ∧ ∀ m' : ℕ, (Sounding vk m' ↔ Sounding w m') := by
      intro k vk hk hvk
      rw [hpt k, if_neg hk] at hvk
      by_cases hki : k ≤ i
      · rw [if_pos hki] at hvk
        obtain ⟨w, hw, rfl⟩ := Option.map_eq_some'.mp hvk
        exact ⟨w, hw, fun m' => check_sounding⟩
      · rw [if_neg hki] at hvk
        exact ⟨vk, hvk, fun m' => Iff.rfl⟩
    have hati : ∀ vk : Voice, (s.try_begin_note n vel).2.voices[i]? = some vk →
        vk = (w0.check_note_done).begin_note n vel := by
      intro vk hvk
      rw [hpt i, if_pos rfl, hw0] at hvk
      exact (Option.some_inj.mp hvk).symm
    by_cases hi' : i' = i <;> by_cases hj' : j' = i
    · omega
    · have hvi' := hati vi (hi' ▸ hvi)
      obtain ⟨w, hw, hiff⟩ := hstat j' vj hj' hvj
      have hm : m = n := begin_sounding.mp (hvi' ▸ hsi)
      have hsn' : Sounding w n := hm ▸ (hiff m).mp hsj
      have hij : i = j' := h n i j' w0 w hw0 hw hsw0 hsn'
      omega
    · have hvj' := hati vj (hj' ▸ hvj)
      obtain ⟨w, hw, hiff⟩ := hstat i' vi hi' hvi
      have hm : m = n := begin_sounding.mp (hvj' ▸ hsj)
      have hsn' : Sounding w n := hm ▸ (hiff m).mp hsi
      have hij : i' = i := h n i' i w w0 hw hw0 hsn' hsw0
      omega
    · obtain ⟨wi, hwi, hiffi⟩ := hstat i' vi hi' hvi
      obtain ⟨wj, hwj, hiffj⟩ := hstat j' vj hj' hvj
      exact h m i' j' wi wj hwi hwj ((hiffi m).mp hsi) ((hiffj m).mp hsj)
  | none =>
    cases hsn : (scanNew (scanPlaying n s.voices).1).2 with
    | some i =>
      obtain ⟨-, hpt⟩ := try_begin_fresh s n vel hsp hsn
      have hnone : ∀ w : Voice, w ∈ s.voices → ¬ Sounding w n :=
        (scanPlaying_none_iff n s.voices).mp hsp
      have hstat : ∀ (k : ℕ) (vk : Voice), k ≠ i →
          (s.try_begin_note n vel).2.voices[k]? = some vk →
          ∃ w, s.voices[k]? = some w ∧ ∀ m' : ℕ, (Sounding vk m' ↔ Sounding w m') := by
        intro k vk hk hvk
        rw [hpt k, if_neg hk] at hvk
        obtain ⟨w, hw, rfl⟩ := Option.map_eq_some'.mp hvk
        exact ⟨w, hw, fun m' => check_sounding⟩
      have hati : ∀ vk : Voice, (s.try_begin_note n vel).2.voices[i]? = some vk →
          ∀ m' : ℕ, Sounding vk m' → m' = n := by
        intro vk hvk m' hsk
        rw [hpt i, if_pos rfl] at hvk
        obtain ⟨w, -, rfl⟩ := Option.map_eq_some'.mp hvk
        exact begin_sounding.mp hsk
      by_cases hi' : i' = i <;> by_cases hj' : j' = i
      · omega
      · have hm : m = n := hati vi (hi' ▸ hvi) m hsi
        obtain ⟨w, hw, hiff⟩ := hstat j' vj hj' hvj
        have : Sounding w n := hm ▸ (hiff m).mp hsj
        exact absurd this (hnone w (List.getElem?_mem hw))
      · have hm : m = n := hati vj (hj' ▸ hvj) m hsj
        obtain ⟨w, hw, hiff⟩ := hstat i' vi hi' hvi
        have : Sounding w n := hm ▸ (hiff m).mp hsi
        exact absurd this (hnone w (List.getElem?_mem hw))
      · obtain ⟨wi, hwi, hiffi⟩ := hstat i' vi hi' hvi
        obtain ⟨wj, hwj, hiffj⟩ := hstat j' vj hj' hvj
        exact h m i' j' wi wj hwi hwj ((hiffi m).mp hsi) ((hiffj m).mp hsj)
    | none =>
      obtain ⟨-, hlist⟩ := try_begin_fail s n vel hsp hsn
      rw [hlist, List.getElem?_map] at hvi hvj
      obtain ⟨wi, hwi, rfl⟩ := Option.map_eq_some'.mp hvi
      obtain ⟨wj, hwj, rfl⟩ := Option.map_eq_some'.mp hvj
      exact h m i' j' wi wj hwi hwj (check_sounding.mp hsi) (check_sounding.mp hsj)

theorem reachable_wf {s : Synth} (h : Reachable s) : InvOnOff s ∧ UniqueSounding s := by
  induction h with
  | new n seed => exact ⟨invOnOff_new n seed, uniqueSounding_new n seed⟩
  | begin_ s note vel _ ih =>
    exact ⟨try_begin_invOnOff s note vel ih.1, try_begin_unique s note vel ih.2⟩
  | end_ s note _ ih => exact ⟨try_end_invOnOff s note ih.1, try_end_unique s note ih.2⟩
  | tick s _ ih => exact ⟨tick_invOnOff s ih.1, tick_unique s ih.2⟩

theorem scanPlaying_length (n : ℕ) (vs : List Voice) :
    (scanPlaying n vs).1.length = vs.length := by
  induction vs with
  | nil => rfl
  | cons v t ih =>
    by_cases hc : ((v.check_note_done).on' = true ∧ (v.check_note_done).note = n)
    · simp [scanPlaying, if_pos hc]
    · simp [scanPlaying, if_neg hc, ih]

theorem scanNew_length (vs : List Voice) : (scanNew vs).1.length = vs.length := by
  induction vs with
  | nil => rfl
  | cons v t ih =>
    by_cases hc : ((v.check_note_done).on' = false)
    · simp [scanNew, if_pos hc]
    · simp [scanNew, if_neg hc, ih]

theorem modifyAt_length (f : Voice → Voice) (i : ℕ) (l : List Voice) :
    (modifyAt f i l).length = l.length := by
  induction l generalizing i with
  | nil => cases i <;> rfl
  | cons v t ih =>
    cases i with
    | zero => simp [modifyAt]
    | succ i => simp [modifyAt, ih]

theorem synth_new_length (n : ℕ) (seed : ℕ → ℕ → ℕ) :
    (Synth.new n seed).voices.length = n := by
  simp [Synth.new]

theorem try_begin_length (s : Synth) (n vel : ℕ) :
    (s.try_begin_note n vel).2.voices.length = s.voices.length := by
  cases hsp : (scanPlaying n s.voices).2 with
  | some i =>
    have hres : s.try_begin_note n vel =
        (true, ⟨modifyAt (fun v => v.begin_note n vel) i (scanPlaying n s.voices).1⟩) := by
      unfold Synth.try_begin_note
      dsimp only
      rw [hsp]
    rw [hres]
    show (modifyAt _ i (scanPlaying n s.voices).1).length = _
    rw [modifyAt_length, scanPlaying_length]
  | none =>
    cases hsn : (scanNew (scanPlaying n s.voices).1).2 with
    | some i =>
      have hres : s.try_begin_note n vel =
          (true, ⟨modifyAt (fun v => v.begin_note n vel) i
            (scanNew (scanPlaying n s.voices).1).1⟩) := by
        unfold Synth.try_begin_note
        dsimp only
        rw [hsp]
        dsimp only
        rw [hsn]
      rw [hres]
      show (modifyAt _ i (scanNew (scanPlaying n s.voices).1).1).length = _
      rw [modifyAt_length, scanNew_length, scanPlaying_length]
    | none =>
      rw [(try_begin_fail s n vel hsp hsn).2, List.length_map]

theorem try_end_length (s : Synth) (n : ℕ) :
    (s.try_end_note n).2.voices.length = s.voices.length := by
  cases hsp : (scanPlaying n s.voices).2 with
  | some i =>
    have hres : s.try_end_note n =
        (true, ⟨modifyAt (fun v => v.end_note) i (scanPlaying n s.voices).1⟩) := by
      unfold Synth.try_end_note
      dsimp only
      rw [hsp]
    rw [hres]
    show (modifyAt _ i (scanPlaying n s.voices).1).length = _
    rw [modifyAt_length, scanPlaying_length]
  | none =>
    rw [(try_end_fail s n hsp).2, List.length_map]

theorem vAt_spec {s : Synth} {i : ℕ} (h : i < s.voices.length) :
    s.voices[i]? = some (vAt s i) := by
  unfold vAt
  rw [List.getElem?_eq_getElem h]
  rfl

/-- C9: a filter cascade whose coefficient alpha equals 1 returns each input
unchanged for every input value and every pole count (the length of
last_per_pole) — the cascade is the identity on its output. -/
theorem c9_filter_alpha_one_identity (f : Filter') (x : ℝ) (h : f.alpha = 1) :
    (f.process x).1 = x := by
  show (Filter'.processAux f.alpha x f.last_per_pole).1 = x
  rw [h]
  exact processAux_alpha_one x f.last_per_pole

/-- C9 witness: the two-pole cascade with alpha = 1 and zeroed history maps
the input 5 to 5. -/
theorem c9_witness : ((⟨1, [0, 0]⟩ : Filter').process 5).1 = 5 :=
  c9_filter_alpha_one_identity ⟨1, [0, 0]⟩ 5 rfl

/-- C5 (amended): at construction the oscillator phase is seeded in [0, 360)
(the wall-clock nanosecond count mod 360, not mod 2π); from the first tick
onward, phase advance wraps with the truncating remainder mod tau, so for a
nonnegative phase and frequency the committed phase lies in [0, 2π) and the
invariant is preserved by every further tick. -/
theorem c5_phase_invariant :
    (∀ nanos : ℕ, 0 ≤ (Oscillator.default nanos).current_phase
      ∧ (Oscillator.default nanos).current_phase < 360)
    ∧ (∀ o : Oscillator, 0 ≤ o.current_phase → 0 ≤ o.current_freq →
        0 ≤ ((o.next).2).current_phase ∧ ((o.next).2).current_phase < tau) := by
  constructor
  · intro nanos
    constructor
    · show (0:ℝ) ≤ ((nanos % 360 : ℕ) : ℝ)
      positivity
    · show ((nanos % 360 : ℕ) : ℝ) < 360
      have h : nanos % 360 < 360 := Nat.mod_lt _ (by norm_num)
      exact_mod_cast h
  · intro o h1 h2
    show 0 ≤ f32Rem (o.current_phase + tau * o.current_freq / (OVERSAMPLE_RATE : ℝ)) tau
      ∧ f32Rem (o.current_phase + tau * o.current_freq / (OVERSAMPLE_RATE : ℝ)) tau < tau
    have hq : (0:ℝ) ≤ tau * o.current_freq / (OVERSAMPLE_RATE : ℝ) :=
      div_nonneg (mul_nonneg tau_pos.le h2) (by positivity)
    have harg : 0 ≤ o.current_phase + tau * o.current_freq / (OVERSAMPLE_RATE : ℝ) := by
      linarith
    exact ⟨f32Rem_nonneg harg tau_pos, f32Rem_lt harg tau_pos⟩

/-- C5 witness: the phase-0 saw oscillator ticks to a phase inside [0, 2π). -/
theorem c5_witness :
    0 ≤ (((⟨0, 0, .Saw⟩ : Oscillator)).next).2.current_phase
    ∧ (((⟨0, 0, .Saw⟩ : Oscillator)).next).2.current_phase < tau :=
  c5_phase_invariant.2 ⟨0, 0, .Saw⟩ le_rfl le_rfl

/-- C5 counterexample: with wall-clock seed 7 the freshly constructed
oscillator starts at phase 7, which exceeds 2π, so the phase invariant does
not hold immediately after construction. -/
theorem c5_counterexample :
    (Oscillator.default 7).current_phase = 7
    ∧ ¬ ((Oscillator.default 7).current_phase < tau) := by
  have hc : (Oscillator.default 7).current_phase = 7 := by
    show ((7 % 360 : ℕ) : ℝ) = 7
    norm_num
  refine ⟨hc, ?_⟩
  rw [hc, not_lt]
  unfold tau
  have h := Real.pi_lt_d2
  linarith

/-- C3: every output sample of the synth comes from exactly one internal tick
of every voice — the lazy (0 .. OVERSAMPLE_RATIO).map(..).nth(0) pipeline runs
its closure once, each voice tick advances each oscillator and the envelope
exactly once — while the phase step tau·f/OVERSAMPLE_RATE and the envelope
progress steps slope/OVERSAMPLE_RATE use OVERSAMPLE_RATE = 4·48000; no
oversampled block is processed and decimated. -/
theorem c3_one_tick_per_output_sample :
    (∀ s : Synth, (s.next).2.voices = s.voices.map (fun v => (v.next).2)
      ∧ (s.next).1 = some ((contributions s.voices).sum))
    ∧ OVERSAMPLE_RATE = 4 * 48000
    ∧ (∀ o : Oscillator, ((o.next).2).current_phase
        = f32Rem (o.current_phase + tau * o.current_freq / (OVERSAMPLE_RATE : ℝ)) tau)
    ∧ (∀ v : Voice, ((v.next).2).oscillators = v.oscillators.map (fun o => (o.next).2)
        ∧ ((v.next).2).amp_eg = (v.amp_eg.next).2)
    ∧ (∀ (a : Adsr) (amt st : ℚ), ¬ (1 ≤ amt) →
        ((Adsr.next { a with segment := .Attack amt st }).2).segment
          = .Attack (amt + (1 / map_range a.velocity_ratio 0 1 a.config.attack_time 0)
              / (OVERSAMPLE_RATE : ℚ)) st) := by
  refine ⟨fun s => ⟨synth_next_voices s, synth_next_fst s⟩,
    by norm_num [OVERSAMPLE_RATE, SAMPLE_RATE, OVERSAMPLE_RATIO],
    fun o => rfl,
    fun v => ⟨by rw [Voice.next_oscs, tickOscs_snd], Voice.next_amp v⟩, ?_⟩
  intro a amt st h
  simp [Adsr.next, if_neg h]

/-- C3 witness: the envelope progress step at a concrete non-transition
Attack state. -/
theorem c3_witness :
    ((Adsr.next { Adsr.new AdsrConfig.default with segment := .Attack 0 0 }).2).segment
      = .Attack ((0:ℚ) + (1 / map_range (Adsr.new AdsrConfig.default).velocity_ratio 0 1
          (Adsr.new AdsrConfig.default).config.attack_time 0) / (OVERSAMPLE_RATE : ℚ)) 0 :=
  c3_one_tick_per_output_sample.2.2.2.2 (Adsr.new AdsrConfig.default) 0 0 (by norm_num)

/-- C2 (amended): for positive attack/decay/release times and velocity in
{1, 64, 127}, the tick at the Attack→Decay transition emits a raw amplitude
of exactly 1 scaled by the velocity loudness factor map(vr, [0,1]→[0.25,1])
— so the emitted value is exactly that factor, not 1.0 — and every Sustain
tick emits exactly sustain_level times the same factor; only at velocity 127
(factor 1) are the emitted values exactly 1.0 and sustain_level. -/
theorem c2_transition_and_sustain_values (cfg : AdsrConfig) (vel : ℕ)
    (hvel : vel ∈ ([1, 64, 127] : List ℕ))
    (ha : 0 < cfg.attack_time) (hd : 0 < cfg.decay_time) (hr : 0 < cfg.release_time)
    (p st : ℚ) (hp : 1 ≤ p) :
    ((Adsr.next ⟨cfg, .Attack p st, (vel : ℚ) / 127⟩).1
        = map_range ((vel : ℚ) / 127) 0 1 (1/4) 1
      ∧ (Adsr.next ⟨cfg, .Attack p st, (vel : ℚ) / 127⟩).2.segment = .Decay 0)
    ∧ (Adsr.next ⟨cfg, .Sustain, (vel : ℚ) / 127⟩).1
        = cfg.sustain_amount * map_range ((vel : ℚ) / 127) 0 1 (1/4) 1
    ∧ (vel = 127 →
        (Adsr.next ⟨cfg, .Attack p st, (vel : ℚ) / 127⟩).1 = 1
        ∧ (Adsr.next ⟨cfg, .Sustain, (vel : ℚ) / 127⟩).1 = cfg.sustain_amount) := by
  refine ⟨⟨?_, ?_⟩, ?_, ?_⟩
  · simp [Adsr.next, if_pos hp]
  · simp [Adsr.next, if_pos hp]
  · simp [Adsr.next]
  · intro h127
    subst h127
    constructor
    · simp [Adsr.next, if_pos hp, map_range]
    · simp [Adsr.next, map_range]

/-- C2 witness: the amended statement evaluated for the default
configuration, velocity 64, at a transition state. -/
theorem c2_witness :
    ((Adsr.next ⟨AdsrConfig.default, .Attack 1 0, ((64 : ℕ) : ℚ) / 127⟩).1
        = map_range (((64 : ℕ) : ℚ) / 127) 0 1 (1/4) 1
      ∧ (Adsr.next ⟨AdsrConfig.default, .Attack 1 0, ((64 : ℕ) : ℚ) / 127⟩).2.segment
          = .Decay 0)
    ∧ (Adsr.next ⟨AdsrConfig.default, .Sustain, ((64 : ℕ) : ℚ) / 127⟩).1
        = AdsrConfig.default.sustain_amount * map_range (((64 : ℕ) : ℚ) / 127) 0 1 (1/4) 1
    ∧ ((64 : ℕ) = 127 →
        (Adsr.next ⟨AdsrConfig.default, .Attack 1 0, ((64 : ℕ) : ℚ) / 127⟩).1 = 1
        ∧ (Adsr.next ⟨AdsrConfig.default, .Sustain, ((64 : ℕ) : ℚ) / 127⟩).1
            = AdsrConfig.default.sustain_amount) :=
  c2_transition_and_sustain_values AdsrConfig.default 64 (by norm_num)
    (by norm_num [AdsrConfig.default]) (by norm_num [AdsrConfig.default])
    (by norm_num [AdsrConfig.default]) 1 0 le_rfl

/-- C2 counterexample: with attack_time 1/192000 (positive) and velocity 64,
a freshly begun note's envelope reaches the Attack→Decay transition on its
second tick and emits 319/508 there, not 1.0. -/
theorem c2_counterexample :
    vC2.amp_eg = envC2
    ∧ ((envC2.next).2).segment = .Attack (127/63) 0
    ∧ (1 : ℚ) ≤ 127/63
    ∧ (((envC2.next).2).next).1 = 319/508
    ∧ ((((envC2.next).2).next).2).segment = .Decay 0
    ∧ (319/508 : ℚ) ≠ 1 := by
  refine ⟨?_, ?_, by norm_num, ?_, ?_, by norm_num⟩
  · norm_num [vC2, Voice.begin_note, Voice.new, Adsr.new, Adsr.next, envC2, map_range, cfgFast]
  · norm_num [envC2, Adsr.next, map_range, cfgFast, OVERSAMPLE_RATE, SAMPLE_RATE,
      OVERSAMPLE_RATIO]
  · norm_num [envC2, Adsr.next, map_range, cfgFast, OVERSAMPLE_RATE, SAMPLE_RATE,
      OVERSAMPLE_RATIO]
  · norm_num [envC2, Adsr.next, map_range, cfgFast, OVERSAMPLE_RATE, SAMPLE_RATE,
      OVERSAMPLE_RATIO]

theorem contributions_sBad : contributions sBad.voices = [-21/16] := by
  have hosc : ((oscSaw.next).1) = -1 := by
    show Waveform.sample .Saw 0 = -1
    simp [Waveform.sample]
  have hmix : (tickOscs vBad.oscillators).1.sum / ((vBad.oscillators.length : ℕ) : ℝ) = -1 := by
    show (tickOscs [oscSaw, oscSaw, oscSaw]).1.sum / (([oscSaw, oscSaw, oscSaw].length : ℕ) : ℝ)
        = -1
    simp [tickOscs, hosc]
    norm_num
  have hamp : ((vBad.amp_eg.next).1) = 1 := by
    show (Adsr.next ⟨⟨1/2, 1/2, 1, 1⟩, .Sustain, 1⟩).1 = 1
    norm_num [Adsr.next, map_range]
  have hfilter : ((vBad.filter.process (-1)).1) = -7/4 := by
    show (Filter'.processAux (1/2 : ℝ) (-1) [-2, -2]).1 = -7/4
    norm_num [Filter'.processAux]
  have hval : ((vBad.next).1) = -7/4 := by
    show ((vBad.filter.process ((tickOscs vBad.oscillators).1.sum
        / ((vBad.oscillators.length : ℕ) : ℝ))).1) * (((vBad.amp_eg.next).1 : ℚ) : ℝ) = -7/4
    rw [hmix, hfilter, hamp]
    norm_num
  show ((tickVoices [vBad]).1).map (fun x => min (x * 0.75) 1) = [-21/16]
  simp only [tickVoices, hval]
  norm_num

/-- C1 (amended): every call to the synth's per-sample generator sums the
per-voice contributions min(voice output · 0.75, 1.0): each contribution is
clipped from above at 1.0 before summing, so every contribution entering the
sum is at most 1, but no lower clamp at −1 is applied. -/
theorem c1_contributions_clipped_above (s : Synth) :
    (s.next).1 = some ((contributions s.voices).sum)
    ∧ ∀ c ∈ contributions s.voices, c ≤ 1 := by
  refine ⟨synth_next_fst s, ?_⟩
  intro c hc
  unfold contributions at hc
  obtain ⟨x, -, rfl⟩ := List.mem_map.mp hc
  exact min_le_right _ _

/-- C1 witness: the single contribution of sBad is at most 1. -/
theorem c1_witness :
    (-21/16 : ℝ) ∈ contributions sBad.voices ∧ (-21/16 : ℝ) ≤ 1 := by
  have hm : (-21/16 : ℝ) ∈ contributions sBad.voices := by
    rw [contributions_sBad]
    simp
  exact ⟨hm, (c1_contributions_clipped_above sBad).2 _ hm⟩

/-- C1 counterexample: the voice vBad contributes −21/16 to the output sum,
which lies outside [−1, 1] — the mixer clips only from above, not to
[−1, 1]. -/
theorem c1_counterexample :
    (-21/16 : ℝ) ∈ contributions sBad.voices ∧ (-21/16 : ℝ) < -1 := by
  constructor
  · rw [contributions_sBad]
    simp
  · norm_num

theorem begin_note_freq (v : Voice) (note vel : ℕ) (i : ℕ) (hlt : i < v.oscillators.length) :
    (((v.begin_note note vel).oscillators[i]?).map Oscillator.current_freq)
      = some ((2:ℝ) ^ ((((note : ℝ)
          + map_range ((i : ℕ) : ℝ) 0 ((v.oscillators.length : ℕ) : ℝ)
              (-((v.detune : ℝ) / 100)) ((v.detune : ℝ) / 100)) - 69) / 12) * 440) := by
  show ((mapWithIdx _ 0 v.oscillators)[i]?).map Oscillator.current_freq = _
  rw [mapWithIdx_getElem?, List.getElem?_eq_getElem hlt]
  simp

/-- C4 (amended): begin_note assigns oscillator i the frequency
440·2^((note + offset_i − 69)/12) with offset_i = map_range(i, (0, 3),
(−d, +d)) = (2i/3 − 1)·d semitones, d = detune/100: the offsets are spread
linearly starting at −d for the first oscillator, but the last oscillator
receives +d/3, not +d.  With zero detune every oscillator gets
440·2^((note−69)/12); note 69 then yields exactly 440 Hz and note 81
exactly 880 Hz. -/
theorem c4_begin_note_frequencies (v : Voice) (note vel : ℕ)
    (hlen : v.oscillators.length = 3) :
    (∀ i : ℕ, i < 3 →
      (((v.begin_note note vel).oscillators[i]?).map Oscillator.current_freq)
        = some ((2:ℝ) ^ (((note : ℝ)
            + (2 * (i : ℝ) / 3 - 1) * ((v.detune : ℝ) / 100) - 69) / 12) * 440))
    ∧ (v.detune = 0 → ∀ i : ℕ, i < 3 →
      (((v.begin_note note vel).oscillators[i]?).map Oscillator.current_freq)
        = some ((2:ℝ) ^ (((note : ℝ) - 69) / 12) * 440))
    ∧ (v.detune = 0 → note = 69 → ∀ i : ℕ, i < 3 →
      (((v.begin_note note vel).oscillators[i]?).map Oscillator.current_freq) = some 440)
    ∧ (v.detune = 0 → note = 81 → ∀ i : ℕ, i < 3 →
      (((v.begin_note note vel).oscillators[i]?).map Oscillator.current_freq) = some 880) := by
  have hlen' : ((v.oscillators.length : ℕ) : ℝ) = 3 := by
    rw [hlen]
    norm_num
  have hmain : ∀ i : ℕ, i < 3 →
      (((v.begin_note note vel).oscillators[i]?).map Oscillator.current_freq)
        = some ((2:ℝ) ^ (((note : ℝ)
            + (2 * (i : ℝ) / 3 - 1) * ((v.detune : ℝ) / 100) - 69) / 12) * 440) := by
    intro i hi
    have hlt : i < v.oscillators.length := by omega
    have hexp : (((note : ℝ) + map_range ((i : ℕ) : ℝ) 0 ((v.oscillators.length : ℕ) : ℝ)
        (-((v.detune : ℝ) / 100)) ((v.detune : ℝ) / 100)) - 69) / 12
        = ((note : ℝ) + (2 * (i : ℝ) / 3 - 1) * ((v.detune : ℝ) / 100) - 69) / 12 := by
      rw [hlen']
      simp only [map_range]
      ring
    rw [begin_note_freq v note vel i hlt, hexp]
  refine ⟨hmain, ?_, ?_, ?_⟩
  · intro hd0 i hi
    rw [hmain i hi, hd0]
    norm_num
  · intro hd0 h69 i hi
    rw [hmain i hi, hd0, h69]
    norm_num [Real.rpow_zero]
  · intro hd0 h81 i hi
    rw [hmain i hi, hd0, h81]
    norm_num [Real.rpow_one]

/-- C4 witness: a zero-detune voice given note 69 tunes its first oscillator
to exactly 440 Hz. -/
theorem c4_witness :
    (((vDet0.begin_note 69 100).oscillators[0]?).map Oscillator.current_freq) = some 440 :=
  (c4_begin_note_frequencies vDet0 69 100 (by simp [vDet0, Voice.new])).2.2.1 rfl rfl 0
    (by norm_num)

/-- C4 counterexample: with the default detune of 5 cents, the claim says the
last oscillator receives the offset +0.05 semitones (frequency
440·2^((1/20)/12) at note 69), but begin_note assigns it offset 1/60
semitone: 440·2^(1/720) ≠ 440·2^(1/240). -/
theorem c4_counterexample :
    (((Voice.new AdsrConfig.default 0 0 0).begin_note 69 64).oscillators[2]?).map
        Oscillator.current_freq = some ((2:ℝ) ^ ((1:ℝ)/720) * 440)
    ∧ (2:ℝ) ^ ((1:ℝ)/720) * 440 ≠ (2:ℝ) ^ ((1:ℝ)/240) * 440 := by
  constructor
  · rw [begin_note_freq (Voice.new AdsrConfig.default 0 0 0) 69 64 2 (by simp [Voice.new])]
    norm_num [Voice.new, map_range]
  · intro heq
    have hlt : (2:ℝ) ^ ((1:ℝ)/720) < (2:ℝ) ^ ((1:ℝ)/240) := by
      rw [Real.rpow_lt_rpow_left_iff (by norm_num : (1:ℝ) < 2)]
      norm_num
    have h440 : (0:ℝ) < 440 := by norm_num
    exact absurd heq (ne_of_lt (mul_lt_mul_of_pos_right hlt h440))

/-- C6: when a Release segment's progress has reached 1 the envelope tick
emits 0 and transitions to Off; in every reachable synth a voice is eligible
for reuse (the lazy allocation-time check clears its on flag) exactly when
its envelope segment is Off, and the allocator's free-voice scan only ever
selects a voice whose segment is Off. -/
theorem c6_reuse_iff_off :
    (∀ (cfg : AdsrConfig) (vr p rp : ℚ), 1 ≤ p →
      Adsr.next ⟨cfg, .Release p rp, vr⟩ = (0, ⟨cfg, .Off, vr⟩))
    ∧ (∀ s : Synth, Reachable s → ∀ v ∈ s.voices,
        (((v.check_note_done).on' = false) ↔ v.amp_eg.segment = .Off))
    ∧ (∀ s : Synth, Reachable s → ∀ i : ℕ, (scanNew s.voices).2 = some i →
        ∃ v, s.voices[i]? = some v ∧ v.amp_eg.segment = .Off) := by
  refine ⟨?_, ?_, ?_⟩
  · intro cfg vr p rp hp
    simp [Adsr.next, if_pos hp]
  · intro s hs v hv
    rw [check_on_false]
    constructor
    · rintro (h1 | h2)
      · obtain ⟨i, hi⟩ := List.mem_iff_getElem?.mp hv
        exact (reachable_wf hs).1 i v hi h1
      · exact h2
    · intro h
      exact Or.inr h
  · intro s hs i hsn
    obtain ⟨v, hv, hfree, -⟩ := scanNew_some hsn
    refine ⟨v, hv, ?_⟩
    rcases hfree with h1 | h2
    · exact (reachable_wf hs).1 i v hv h1
    · exact h2

/-- C6 witness: a finished release tick at progress 1, and the eligibility
equivalence evaluated on the fresh one-voice synth. -/
theorem c6_witness :
    Adsr.next ⟨AdsrConfig.default, .Release 1 (1/2), 1/2⟩ = (0, ⟨AdsrConfig.default, .Off, 1/2⟩)
    ∧ ((((Voice.new AdsrConfig.default 0 0 0).check_note_done).on' = false)
        ↔ (Voice.new AdsrConfig.default 0 0 0).amp_eg.segment = .Off) := by
  constructor
  · exact c6_reuse_iff_off.1 AdsrConfig.default (1/2) 1 (1/2) le_rfl
  · exact c6_reuse_iff_off.2.1 (Synth.new 1 (fun _ _ => 0))
      (Reachable.new 1 (fun _ _ => 0)) (Voice.new AdsrConfig.default 0 0 0)
      (by simp [Synth.new])

/-- C7: in every reachable synth, try_begin_note fails exactly when no voice
is currently sounding the requested note and no voice's envelope has reached
Off (pool exhausted), and try_end_note fails exactly when no voice is
currently sounding the note. -/
theorem c7_failure_conditions (s : Synth) (hs : Reachable s) (note vel : ℕ) :
    (((s.try_begin_note note vel).1 = false)
      ↔ ((∀ v ∈ s.voices, ¬ Sounding v note) ∧ ∀ v ∈ s.voices, v.amp_eg.segment ≠ .Off))
    ∧ (((s.try_end_note note).1 = false) ↔ ∀ v ∈ s.voices, ¬ Sounding v note) := by
  constructor
  · constructor
    · intro hfail
      cases hsp : (scanPlaying note s.voices).2 with
      | some i =>
        have := ((try_begin_found s note vel hsp).1).symm.trans hfail
        cases this
      | none =>
        cases hsn : (scanNew (scanPlaying note s.voices).1).2 with
        | some i =>
          have := ((try_begin_fresh s note vel hsp hsn).1).symm.trans hfail
          cases this
        | none =>
          constructor
          · exact (scanPlaying_none_iff note s.voices).mp hsp
          · intro v hv hoff
            have h1 := (scanNew_none_iff _).mp hsn (v.check_note_done)
              (by rw [scanPlaying_none_fst hsp]; exact List.mem_map_of_mem _ hv)
            exact h1.2 (by rw [check_amp]; exact hoff)
    · rintro ⟨hns, hnoff⟩
      have hsp : (scanPlaying note s.voices).2 = none :=
        (scanPlaying_none_iff note s.voices).mpr hns
      have hsn : (scanNew (scanPlaying note s.voices).1).2 = none := by
        rw [scanPlaying_none_fst hsp, scanNew_none_iff]
        intro v' hv'
        obtain ⟨v, hv, rfl⟩ := List.mem_map.mp hv'
        have hvoff : v.amp_eg.segment ≠ .Off := hnoff v hv
        have hon : v.on' = true := by
          cases hb : v.on' with
          | true => rfl
          | false =>
            obtain ⟨i, hi⟩ := List.mem_iff_getElem?.mp hv
            exact absurd ((reachable_wf hs).1 i v hi hb) hvoff
        constructor
        · exact check_on_true.mpr ⟨hon, hvoff⟩
        · rw [check_amp]
          exact hvoff
      exact (try_begin_fail s note vel hsp hsn).1
  · constructor
    · intro hfail
      cases hsp : (scanPlaying note s.voices).2 with
      | some i =>
        have := ((try_end_found s note hsp).1).symm.trans hfail
        cases this
      | none => exact (scanPlaying_none_iff note s.voices).mp hsp
    · intro hns
      exact (try_end_fail s note ((scanPlaying_none_iff note s.voices).mpr hns)).1

/-- C7 witness: the failure equivalences evaluated on the fresh one-voice
synth for note 60, velocity 64. -/
theorem c7_witness :
    ((((Synth.new 1 (fun _ _ => 0)).try_begin_note 60 64).1 = false)
      ↔ ((∀ v ∈ (Synth.new 1 (fun _ _ => 0)).voices, ¬ Sounding v 60)
          ∧ ∀ v ∈ (Synth.new 1 (fun _ _ => 0)).voices, v.amp_eg.segment ≠ .Off))
    ∧ ((((Synth.new 1 (fun _ _ => 0)).try_end_note 60).1 = false)
      ↔ ∀ v ∈ (Synth.new 1 (fun _ _ => 0)).voices, ¬ Sounding v 60) :=
  c7_failure_conditions (Synth.new 1 (fun _ _ => 0)) (Reachable.new 1 (fun _ _ => 0)) 60 64

/-- C8 (amended): if voice i of a reachable synth is currently sounding note
n, try_begin_note(n, vel) succeeds, retunes and retriggers exactly that
voice (fresh Attack segment), and allocates no other voice; every other
voice is either left untouched or merely passed through the lazy done-check
— which changes only the on flag (note, envelope, oscillators and filter are
untouched) — and afterwards every note still sounds on at most one voice. -/
theorem c8_retrigger_same_voice (s : Synth) (hs : Reachable s) (i : ℕ) (v : Voice)
    (n vel : ℕ) (hv : s.voices[i]? = some v) (hsv : Sounding v n) :
    (s.try_begin_note n vel).1 = true
    ∧ (s.try_begin_note n vel).2.voices[i]? = some (v.begin_note n vel)
    ∧ ((v.begin_note n vel).amp_eg.segment = .Attack 0 ((v.amp_eg.next).1))
    ∧ (∀ (j : ℕ) (w : Voice), j ≠ i → s.voices[j]? = some w →
        ((s.try_begin_note n vel).2.voices[j]? = some w
          ∨ (s.try_begin_note n vel).2.voices[j]? = some w.check_note_done))
    ∧ (∀ w : Voice, w.check_note_done.note = w.note
        ∧ w.check_note_done.amp_eg = w.amp_eg
        ∧ w.check_note_done.oscillators = w.oscillators
        ∧ w.check_note_done.filter = w.filter)
    ∧ UniqueSounding (s.try_begin_note n vel).2 := by
  have hne : (scanPlaying n s.voices).2 ≠ none := by
    intro h0
    exact ((scanPlaying_none_iff n s.voices).mp h0) v (List.getElem?_mem hv) hsv
  cases hsp : (scanPlaying n s.voices).2 with
  | none => exact absurd hsp hne
  | some i0 =>
    obtain ⟨w0, hw0, hsw0, -⟩ := scanPlaying_some hsp
    have hii : i = i0 := (reachable_wf hs).2 n i i0 v w0 hv hw0 hsv hsw0
    subst hii
    obtain ⟨hok, hpt⟩ := try_begin_found s n vel hsp
    have hcheck : v.check_note_done = v := check_id hsv.2.2
    refine ⟨hok, ?_, begin_segment v n vel, ?_, ?_,
      try_begin_unique s n vel (reachable_wf hs).2⟩
    · rw [hpt i, if_pos rfl, hv]
      simp [hcheck]
    · intro j w hj hw
      rw [hpt j, if_neg hj]
      by_cases hji : j ≤ i
      · rw [if_pos hji, hw]
        exact Or.inr rfl
      · rw [if_neg hji, hw]
        exact Or.inl rfl
    · intro w
      exact ⟨check_note w, check_amp w, check_oscs w, check_filter w⟩

/-- C8 counterexample: in s8c voice 1 is sounding note 60, yet
try_begin_note(60, 64) also modifies voice 0 — the scan's lazy done-check
clears its stale on flag — so the operation does not leave every other voice
unmodified. -/
theorem c8_counterexample :
    (s8c.voices[1]? = some v8b ∧ Sounding v8b 60)
    ∧ (s8c.voices[0]?).map Voice.on' = some true
    ∧ ((s8c.try_begin_note 60 64).2.voices[0]?).map Voice.on' = some false := by
  refine ⟨⟨by simp [s8c], ?_⟩, by simp [s8c, v8a], ?_⟩
  · refine ⟨rfl, rfl, ?_⟩
    simp [v8b, v8a]
  · have hsp : (scanPlaying 60 s8c.voices).2 = some 1 := by
      show (scanPlaying 60 [v8a, v8b]).2 = some 1
      simp [scanPlaying, Voice.check_note_done, v8a, v8b]
    obtain ⟨-, hpt⟩ := try_begin_found s8c 60 64 hsp
    rw [hpt 0]
    norm_num
    simp [s8c, v8a, Voice.check_note_done]

/-- C10: in a reachable synth, a voice whose envelope is in Release still
reports as on and sounding its note, so try_end_note for that note succeeds
again: it replaces the voice by end_note of it, which keeps the on flag set
and restarts the Release segment at progress 0 with start level taken from
the envelope's next emitted value — repeated note-offs extend the release
tail instead of failing. -/
theorem c10_release_note_off_again (s : Synth) (hs : Reachable s) (i : ℕ) (v : Voice)
    (n : ℕ) (p rp : ℚ) (hv : s.voices[i]? = some v) (hon : v.on' = true)
    (hnote : v.note = n) (hseg : v.amp_eg.segment = .Release p rp) :
    (s.try_end_note n).1 = true
    ∧ (s.try_end_note n).2.voices[i]? = some v.end_note
    ∧ (v.end_note).on' = true
    ∧ (v.end_note).amp_eg.segment = .Release 0 ((v.amp_eg.next).1) := by
  have hsv : Sounding v n := ⟨hon, hnote, by rw [hseg]; simp⟩
  have hne : (scanPlaying n s.voices).2 ≠ none := fun h0 =>
    ((scanPlaying_none_iff n s.voices).mp h0) v (List.getElem?_mem hv) hsv
  cases hsp : (scanPlaying n s.voices).2 with
  | none => exact absurd hsp hne
  | some i0 =>
    obtain ⟨w0, hw0, hsw0, -⟩ := scanPlaying_some hsp
    have hii : i = i0 := (reachable_wf hs).2 n i i0 v w0 hv hw0 hsv hsw0
    subst hii
    obtain ⟨hok, hpt⟩ := try_end_found s n hsp
    refine ⟨hok, ?_, ?_, ?_⟩
    · rw [hpt i, if_pos rfl, hv]
      simp [check_id hsv.2.2]
    · rw [end_on]
      exact hon
    · exact end_segment_not_sustain (by rw [hseg]; simp)

theorem s0w_voices : s0w.voices = [Voice.new AdsrConfig.default 0 0 0] := by
  simp [s0w, Synth.new]

theorem s0w_scanPlaying : (scanPlaying 60 s0w.voices).2 = none := by
  rw [s0w_voices]
  simp [scanPlaying, Voice.check_note_done, Voice.new, Adsr.new]

theorem s0w_scanNew : (scanNew (scanPlaying 60 s0w.voices).1).2 = some 0 := by
  rw [scanPlaying_none_fst s0w_scanPlaying, s0w_voices]
  simp [scanNew, Voice.check_note_done, Voice.new, Adsr.new]

theorem s1w_voice0 : s1w.voices[0]? = some v1w := by
  show ((s0w.try_begin_note 60 64).2).voices[0]? = _
  rw [(try_begin_fresh s0w 60 64 s0w_scanPlaying s0w_scanNew).2 0, if_pos rfl, s0w_voices]
  simp [v1w]

theorem v1w_on : v1w.on' = true := rfl

theorem v1w_note : v1w.note = 60 := rfl

theorem v1w_amp : v1w.amp_eg = ⟨AdsrConfig.default, .Attack 0 0, 64/127⟩ := by
  unfold v1w
  norm_num [Voice.begin_note, Voice.check_note_done, Voice.new, Adsr.new, Adsr.next, map_range]

theorem v1w_segment : v1w.amp_eg.segment = .Attack 0 0 := by
  rw [v1w_amp]

theorem v1w_sounding : Sounding v1w 60 := by
  refine ⟨v1w_on, v1w_note, ?_⟩
  rw [v1w_segment]
  simp

theorem s1w_voices : s1w.voices = [v1w] := by
  have h1 : s1w.voices.length = 1 := by
    show ((s0w.try_begin_note 60 64).2).voices.length = 1
    rw [try_begin_length]
    rw [s0w_voices]
    rfl
  have h0 := s1w_voice0
  cases hv : s1w.voices with
  | nil => rw [hv] at h1; cases h1
  | cons a t =>
    rw [hv] at h1 h0
    simp at h0
    cases t with
    | nil => rw [h0]
    | cons b u => simp at h1

theorem s1w_scanPlaying : (scanPlaying 60 s1w.voices).2 = some 0 := by
  rw [s1w_voices]
  simp [scanPlaying, Voice.check_note_done, v1w_segment, v1w_on, v1w_note]

theorem check_v1w : v1w.check_note_done = v1w := by
  refine check_id ?_
  rw [v1w_segment]
  simp

theorem s2w_voice0 : s2w.voices[0]? = some v2w := by
  show ((s1w.try_end_note 60).2).voices[0]? = _
  rw [(try_end_found s1w 60 s1w_scanPlaying).2 0, if_pos rfl, s1w_voice0]
  simp [check_v1w, v2w]

theorem v2w_on : v2w.on' = true := by
  unfold v2w
  rw [end_on]
  exact v1w_on

theorem v2w_note : v2w.note = 60 := by
  unfold v2w
  rw [end_note_note]
  exact v1w_note

theorem v2w_segment : v2w.amp_eg.segment = .Release 0 0 := by
  unfold v2w
  rw [end_segment_not_sustain (by rw [v1w_segment]; simp)]
  rw [v1w_amp]
  norm_num [Adsr.next, map_range]

/-- C8 witness: retriggering note 60 on s1w, whose voice 0 is sounding it. -/
theorem c8_witness :
    (s1w.try_begin_note 60 64).1 = true
    ∧ (s1w.try_begin_note 60 64).2.voices[0]? = some (v1w.begin_note 60 64)
    ∧ ((v1w.begin_note 60 64).amp_eg.segment = .Attack 0 ((v1w.amp_eg.next).1))
    ∧ (∀ (j : ℕ) (w : Voice), j ≠ 0 → s1w.voices[j]? = some w →
        ((s1w.try_begin_note 60 64).2.voices[j]? = some w
          ∨ (s1w.try_begin_note 60 64).2.voices[j]? = some w.check_note_done))
    ∧ (∀ w : Voice, w.check_note_done.note = w.note
        ∧ w.check_note_done.amp_eg = w.amp_eg
        ∧ w.check_note_done.oscillators = w.oscillators
        ∧ w.check_note_done.filter = w.filter)
    ∧ UniqueSounding (s1w.try_begin_note 60 64).2 :=
  c8_retrigger_same_voice s1w
    (Reachable.begin_ s0w 60 64 (Reachable.new 1 (fun _ _ => 0)))
    0 v1w 60 64 s1w_voice0 v1w_sounding

/-- C10 witness: a second note-off for note 60 on s2w, whose voice 0 is in
Release(0, 0), succeeds and restarts the release. -/
theorem c10_witness :
    (s2w.try_end_note 60).1 = true
    ∧ (s2w.try_end_note 60).2.voices[0]? = some v2w.end_note
    ∧ (v2w.end_note).on' = true
    ∧ (v2w.end_note).amp_eg.segment = .Release 0 ((v2w.amp_eg.next).1) :=
  c10_release_note_off_again s2w
    (Reachable.end_ s1w 60 (Reachable.begin_ s0w 60 64 (Reachable.new 1 (fun _ _ => 0))))
    0 v2w 60 0 0 s2w_voice0 v2w_on v2w_note v2w_segment
